import Mathlib

/-!
Verification of the cronexpr crontab library (src/src/lib.rs, src/src/parser.rs).

The development shallowly embeds the two subsystems of the crate:

* the expression parser (`parser.rs`): winnow-style combinators are modelled as
  functions `List Char → PRes α` where `PRes` distinguishes winnow's
  backtracking errors (`ErrMode::Backtrack`) from committing ones
  (`ErrMode::Cut`, produced by the crate's `try_map_cut`); Rust string slicing
  (which panics when indices are out of bounds) is modelled with `Option`,
  `none` standing for a panic;
* the next-firing solver (`lib.rs`): `jiff` zoned datetimes are modelled as
  civil (wall-clock) datetimes in a fixed-offset zone, which is exact for the
  zones exercised by the crate's own tests (`Asia/Shanghai`, `UTC` — neither
  has DST).  Calendar arithmetic (`jiff`) is modelled by explicit proleptic
  Gregorian computations.  The solver loop gets an explicit fuel argument;
  `none` means the fuel ran out (never an outcome of the real loop, which is
  bounded by the four-year check).

Machine integers: the crate parses into `u64`/`u8` with explicit bound checks
before narrowing, so all quantities are modelled as `Nat` with the bounds made
explicit (`u64Max`, the `255` checks of `parse_single_number`/`parse_step`,
and the `u8 as i8` reinterpretation `i8OfU8` used for the `#nth` matcher).
-/

/-! ## Normalizer (`normalize_crontab`, parser.rs lines 53-59) -/

/-- Rust `char::is_ascii_whitespace`: space, tab, newline, form feed,
carriage return. -/
def isAsciiWs (c : Char) : Bool :=
  c == ' ' || c == '\t' || c == '\n' || c == '\r' || c == Char.ofNat 12

/-- Accumulator-style splitter behind `str::split_ascii_whitespace`: `acc`
holds the reversed characters of the token currently being read. -/
def splitWsAux : List Char → List Char → List (List Char)
  | [], acc => if acc.isEmpty then [] else [acc.reverse]
  | c :: cs, acc =>
    if isAsciiWs c then
      if acc.isEmpty then splitWsAux cs [] else acc.reverse :: splitWsAux cs []
    else
      splitWsAux cs (c :: acc)

/-- `input.split_ascii_whitespace()` as a list of tokens (the crate's extra
`filter(|part| !part.is_empty())` is a no-op: the iterator never yields empty
tokens, see `splitWs_tokens_wf`). -/
def splitWs (s : List Char) : List (List Char) := splitWsAux s []

/-- `Vec::join(" ")`. -/
def joinSp : List (List Char) → List Char
  | [] => []
  | t :: ts =>
    match ts with
    | [] => t
    | _ :: _ => t ++ ' ' :: joinSp ts

/-- `normalize_crontab` on character lists. -/
def normalizeL (s : List Char) : List Char := joinSp (splitWs s)

/-- `pub fn normalize_crontab(input: &str) -> String`. -/
def normalize_crontab (input : String) : String := ⟨normalizeL input.data⟩

/-! ## Calendar facility (models `jiff` civil datetimes, fixed-offset zone) -/

/-- A zoned datetime viewed through its wall-clock components.  `jiff`'s
sub-second precision is collapsed into a single nanosecond counter `ns`. -/
structure DateTime where
  y : Nat
  mo : Nat
  d : Nat
  h : Nat
  mi : Nat
  s : Nat
  ns : Nat
deriving DecidableEq, Repr

/-- Gregorian leap year. -/
def isLeapYear (y : Nat) : Bool :=
  (y % 4 == 0 && y % 100 != 0) || y % 400 == 0

/-- `Zoned::days_in_month` (models jiff). -/
def daysInMonth (y mo : Nat) : Nat :=
  if mo = 2 then (if isLeapYear y then 29 else 28)
  else if mo = 4 ∨ mo = 6 ∨ mo = 9 ∨ mo = 11 then 30
  else 31

/-- Days in the proleptic Gregorian calendar strictly before year `y`. -/
def daysBeforeYear (y : Nat) : Nat :=
  365 * (y - 1) + ((y - 1) / 4 - (y - 1) / 100 + (y - 1) / 400)

/-- Days of year `y` strictly before month `mo`. -/
def daysBeforeMonth (y mo : Nat) : Nat :=
  (List.range' 1 (mo - 1)).foldl (fun acc m => acc + daysInMonth y m) 0

/-- Ordinal day number of a date; 0001-01-01 is day 1 (a Monday). -/
def dayNumber (z : DateTime) : Nat :=
  daysBeforeYear z.y + daysBeforeMonth z.y z.mo + z.d

/-- `Zoned::weekday() as u8` with jiff's Monday=1 … Sunday=7 encoding
(models jiff; calibrated so that 2024-01-01 is a Monday, matching the crate's
snapshot tests). -/
def weekday (z : DateTime) : Nat := (dayNumber z - 1) % 7 + 1

/-- Wall-clock successor day (used for `+ 1.day()` in a fixed-offset zone). -/
def addOneDay (z : DateTime) : DateTime :=
  if z.d < daysInMonth z.y z.mo then { z with d := z.d + 1 }
  else if z.mo < 12 then { z with mo := z.mo + 1, d := 1 }
  else { z with y := z.y + 1, mo := 1, d := 1 }

/-- `+ n.days()`. -/
def addDays : Nat → DateTime → DateTime
  | 0, z => z
  | n + 1, z => addDays n (addOneDay z)

/-- `+ 1.hour()` (wall clock, fixed-offset zone). -/
def addOneHour (z : DateTime) : DateTime :=
  if z.h < 23 then { z with h := z.h + 1 }
  else { addOneDay z with h := 0 }

/-- `+ 1.minute()`. -/
def addOneMinute (z : DateTime) : DateTime :=
  if z.mi < 59 then { z with mi := z.mi + 1 }
  else { addOneHour z with mi := 0 }

/-- `round(ZonedRound::new().mode(RoundMode::Trunc).smallest(Unit::Minute))`. -/
def truncMinute (z : DateTime) : DateTime := { z with s := 0, ns := 0 }

/-- Truncation to the hour. -/
def truncHour (z : DateTime) : DateTime := { z with mi := 0, s := 0, ns := 0 }

/-- Truncation to the day. -/
def truncDay (z : DateTime) : DateTime :=
  { z with h := 0, mi := 0, s := 0, ns := 0 }

/-- `&zoned + 4.years()` — jiff adds calendar years and constrains the day to
the target month's length (models jiff). -/
def addYears4 (z : DateTime) : DateTime :=
  { z with y := z.y + 4, d := min z.d (daysInMonth (z.y + 4) z.mo) }

/-- Chronological (lexicographic wall-clock) order on datetimes. -/
def dtLt (a b : DateTime) : Prop :=
  a.y < b.y ∨ (a.y = b.y ∧ (a.mo < b.mo ∨ (a.mo = b.mo ∧
    (a.d < b.d ∨ (a.d = b.d ∧ (a.h < b.h ∨ (a.h = b.h ∧
      (a.mi < b.mi ∨ (a.mi = b.mi ∧ (a.s < b.s ∨
        (a.s = b.s ∧ a.ns < b.ns)))))))))))

instance (a b : DateTime) : Decidable (dtLt a b) := by
  unfold dtLt
  infer_instance

/-- `u8 as i8` reinterpretation (two's complement), used because the matcher
calls `value.nth_weekday_of_month(*nth as i8, ..)` on a `u8`-parsed `nth`. -/
def i8OfU8 (n : Nat) : Int := if n < 128 then (n : Int) else (n : Int) - 256

/-- `Zoned::nth_weekday_of_month(nth: i8, weekday)` (models jiff): the date of
the `nth` occurrence of `w` in the datetime's month; negative `nth` counts
from the end of the month; errors (here `none`) when `nth` is zero or the
occurrence does not exist. -/
def nthWeekdayOfMonth (y mo : Nat) (nth : Int) (w : Nat) :
    Option (Nat × Nat × Nat) :=
  if 1 ≤ nth then
    let n := nth.toNat
    let wd1 := weekday ⟨y, mo, 1, 0, 0, 0, 0⟩
    let d := 1 + ((w + 7 - wd1) % 7) + 7 * (n - 1)
    if d ≤ daysInMonth y mo then some (y, mo, d) else none
  else if nth ≤ -1 then
    let k := (-nth).toNat
    let dim := daysInMonth y mo
    let wdL := weekday ⟨y, mo, dim, 0, 0, 0, 0⟩
    let lastD := dim - ((wdL + 7 - w) % 7)
    if 7 * (k - 1) < lastD then some (y, mo, lastD - 7 * (k - 1)) else none
  else none

/-! ## Schedule representation and matchers (lib.rs) -/

/-- `PossibleLiterals` — a `BTreeSet<u8>` of admissible values, modelled as
the sorted duplicate-free list built by `btreeInsert`. -/
structure PossibleLiterals where
  values : List Nat
deriving DecidableEq, Repr

/-- `BTreeSet::insert`: sorted insertion without duplicates. -/
def btreeInsert (n : Nat) : List Nat → List Nat
  | [] => [n]
  | x :: xs =>
    if n < x then n :: x :: xs
    else if n = x then x :: xs
    else x :: btreeInsert n xs

/-- `PossibleLiterals::matches`. -/
def PossibleLiterals.matches (p : PossibleLiterals) (value : Nat) : Bool :=
  p.values.contains value

/-- `ParsedDaysOfWeek` (lib.rs lines 100-109).  The `HashSet`s are modelled
as duplicate-free lists in insertion order; weekdays are their
Monday=1 … Sunday=7 numbers. -/
structure ParsedDaysOfWeek where
  literals : List Nat
  last_days_of_week : List Nat
  nth_days_of_week : List (Nat × Nat)
  start_with_asterisk : Bool
deriving DecidableEq, Repr

/-- `ParsedDaysOfWeek::matches` (lib.rs lines 111-141). -/
def ParsedDaysOfWeek.matches (p : ParsedDaysOfWeek) (value : DateTime) : Bool :=
  p.literals.contains (weekday value) ||
  p.last_days_of_week.any (fun w =>
    weekday value == w && decide ((addDays 7 value).mo > value.mo)) ||
  p.nth_days_of_week.any (fun nw =>
    weekday value == nw.2 &&
      match nthWeekdayOfMonth value.y value.mo (i8OfU8 nw.1) nw.2 with
      | some dte => dte == (value.y, value.mo, value.d)
      | none => false)

/-- `ParsedDaysOfMonth` (lib.rs lines 143-152). -/
structure ParsedDaysOfMonth where
  literals : List Nat
  last_day_of_month : Bool
  nearest_weekdays : List Nat
  start_with_asterisk : Bool
deriving DecidableEq, Repr

/-- `ParsedDaysOfMonth::matches` (lib.rs lines 154-218).  The weekday number
cases follow the source's `match value.weekday()` arms (6 = Saturday,
7 = Sunday, 2-4 = Tuesday-Thursday, 1 = Monday, 5 = Friday). -/
def ParsedDaysOfMonth.matches (p : ParsedDaysOfMonth) (value : DateTime) : Bool :=
  p.literals.contains value.d ||
  (p.last_day_of_month && decide ((addOneDay value).mo > value.mo)) ||
  p.nearest_weekdays.any (fun day =>
    match weekday value with
    | 6 => false
    | 7 => false
    | 2 => value.d == day
    | 3 => value.d == day
    | 4 => value.d == day
    | 1 => value.d == day || value.d - 1 == day || (value.d == 3 && day == 1)
    | 5 =>
      value.d == day ||
      (value.d + 1 == day && day ≤ daysInMonth value.y value.mo) ||
      (value.d + 2 == day && day == daysInMonth value.y value.mo)
    | _ => false)

/-- `Crontab` (lib.rs lines 42-50).  The resolved `TimeZone` handle is not
carried: the model works directly on wall-clock datetimes of the schedule's
(fixed-offset) zone. -/
structure Crontab where
  minutes : PossibleLiterals
  hours : PossibleLiterals
  months : PossibleLiterals
  days_of_month : ParsedDaysOfMonth
  days_of_week : ParsedDaysOfWeek
deriving DecidableEq, Repr

/-! ## Next-firing solver (`Crontab::find_next`, lib.rs lines 244-296) -/

/-- Solver outcome other than success.  `exhausted last` corresponds to the
error message `"failed to find next timestamp in four years; end with {next}"`
with `last` the candidate that exceeded the bound. -/
inductive FindError where
  | exhausted (last : DateTime)
deriving DecidableEq, Repr

/-- The `loop` of `Crontab::find_next` with explicit fuel; `none` is fuel
exhaustion (not an outcome of the real loop).  Each branch mirrors one
`advance_time_and_round` call of the source, in source order: month skip,
day-of-month, hour, minute, day-of-week. -/
def findNextLoop (c : Crontab) (bound : DateTime) :
    Nat → DateTime → Option (Except FindError DateTime)
  | 0, _ => none
  | fuel + 1, next =>
    if dtLt bound next then some (.error (.exhausted next))
    else if !c.months.matches next.mo then
      findNextLoop c bound fuel
        (truncDay (addDays (daysInMonth next.y next.mo - next.d + 1) next))
    else if !c.days_of_month.matches next then
      findNextLoop c bound fuel (truncDay (addOneDay next))
    else if !c.hours.matches next.h then
      findNextLoop c bound fuel (truncHour (addOneHour next))
    else if !c.minutes.matches next.mi then
      findNextLoop c bound fuel (truncMinute (addOneMinute next))
    else if !c.days_of_week.matches next then
      findNextLoop c bound fuel (truncDay (addOneDay next))
    else some (.ok next)

/-- `Crontab::find_next`: the start instant is given as the zoned datetime
`zoned` of the schedule's zone; the first step advances by one minute and
truncates, the loop then searches up to `zoned + 4.years()`. -/
def find_next (fuel : Nat) (c : Crontab) (zoned : DateTime) :
    Option (Except FindError DateTime) :=
  findNextLoop c (addYears4 zoned) fuel (truncMinute (addOneMinute zoned))

/-! ## Parser embedding (parser.rs)

Winnow parsers become functions `List Char → PRes α`.  `PRes.back` is
`ErrMode::Backtrack` (an `alt` tries the next branch), `PRes.cut` is
`ErrMode::Cut` as produced by the crate's committing `try_map_cut` (an `alt`
aborts).  Error payloads are structured counterparts of the crate's
formatted messages. -/

/-- `u64::MAX`: `dec_uint::<u64>` fails (backtracks) past this value. -/
def u64Max : Nat := 18446744073709551615

/-- Structured parse errors; each constructor corresponds to one message of
parser.rs: `malformed` to the empty `ContextError` rendered as
`"malformed expression"`, `valueOutOfRange lo hi n` to
`"value must be in range {lo}..={hi}; found {n}"`, `rangeDescending a b` to
`"range must be in ascending order; found {a}-{b}"`, `rangeOutOfRange` to
`"range must be in range ..."`, `stepZero` to
`"step must be greater than 0"`, `stepOutOfRange lo hi s` to
`"step must be in range {lo}..={hi}; found {s}"`, and `unknownTimezone` to
`"failed to find timezone {name}; ..."`. -/
inductive PErr where
  | malformed
  | valueOutOfRange (lo hi n : Nat)
  | rangeDescending (a b : Nat)
  | rangeOutOfRange (lo hi a b : Nat)
  | stepZero
  | stepOutOfRange (lo hi st : Nat)
  | unknownTimezone (name : List Char)
deriving DecidableEq, Repr

/-- Result of running a winnow parser on an input. -/
inductive PRes (α : Type) where
  | ok (a : α) (rest : List Char)
  | back (e : PErr)
  | cut (e : PErr)
deriving DecidableEq, Repr

/-- A winnow parser. -/
abbrev P (α : Type) := List Char → PRes α

/-- `Parser::map`. -/
def pmap (p : P α) (f : α → β) : P β := fun i =>
  match p i with
  | .ok a r => .ok (f a) r
  | .back e => .back e
  | .cut e => .cut e

/-- Tuple sequencing `(p, q)`. -/
def pseq (p : P α) (q : P β) : P (α × β) := fun i =>
  match p i with
  | .ok a r =>
    match q r with
    | .ok b r2 => .ok (a, b) r2
    | .back e => .back e
    | .cut e => .cut e
  | .back e => .back e
  | .cut e => .cut e

/-- The crate's `try_map_cut` (parser.rs lines 427-496): on semantic failure
the error is committing (`.cut`), so surrounding `alt`s do not backtrack. -/
def tryMapCut (p : P α) (f : α → Except PErr β) : P β := fun i =>
  match p i with
  | .ok a r =>
    match f a with
    | .ok b => .ok b r
    | .error e => .cut e
  | .back e => .back e
  | .cut e => .cut e

/-- Literal token parser (winnow `&str as Parser`). -/
def plit (s : String) : P Unit := fun i =>
  if s.data.isPrefixOf i then .ok () (i.drop s.data.length)
  else .back .malformed

/-- `alt` of two branches. -/
def alt2 (p q : P α) : P α := fun i =>
  match p i with
  | .back _ => q i
  | r => r

/-- `alt` over a list of branches; when every branch backtracks the combined
`ContextError` renders as `"malformed expression"`. -/
def altL (ps : List (P α)) : P α :=
  ps.foldr alt2 (fun _ => PRes.back .malformed)

/-- ASCII digit. -/
def isDigitC (c : Char) : Bool := '0' ≤ c && c ≤ '9'

/-- Decimal value of a digit string. -/
def digitsVal (ds : List Char) : Nat :=
  ds.foldl (fun acc c => 10 * acc + (c.toNat - 48)) 0

/-- `winnow::ascii::dec_uint` (models winnow): one or more digits, decoded
checked into the target integer type (`max` its maximum); overflow
backtracks. -/
def decUint (max : Nat) : P Nat := fun i =>
  if (i.takeWhile isDigitC).isEmpty then .back .malformed
  else if digitsVal (i.takeWhile isDigitC) ≤ max then
    .ok (digitsVal (i.takeWhile isDigitC)) (i.drop (i.takeWhile isDigitC).length)
  else .back .malformed

/-- `eof`. -/
def eofP : P Unit := fun i =>
  match i with
  | [] => .ok () []
  | _ :: _ => .back .malformed

/-- `parse_asterisk` (parser.rs lines 316-320): `*` expands to the whole
domain `lo..=hi`. -/
def parse_asterisk (lo hi : Nat) : P (List Nat) :=
  pmap (plit "*") (fun _ => List.range' lo (hi + 1 - lo))

/-- `parse_single_number` (parser.rs lines 322-343): `dec_uint::<u64>`, then
the committing checks `n > u8::MAX` and range membership, both reporting the
full parsed value. -/
def parse_single_number (lo hi : Nat) : P Nat :=
  tryMapCut (decUint u64Max) (fun n =>
    if n > 255 then .error (.valueOutOfRange lo hi n)
    else if lo ≤ n ∧ n ≤ hi then .ok n
    else .error (.valueOutOfRange lo hi n))

/-- `parse_range` (parser.rs lines 345-374). -/
def parse_range (lo hi : Nat) (bnd : P Nat) : P (List Nat) :=
  tryMapCut (pseq bnd (pseq (plit "-") bnd)) (fun x =>
    let a := x.1
    let b := x.2.2
    if a > b then .error (.rangeDescending a b)
    else if lo ≤ a ∧ a ≤ hi ∧ lo ≤ b ∧ b ≤ hi then
      .ok (List.range' a (b + 1 - a))
    else .error (.rangeOutOfRange lo hi a b))

/-- Countdown helper for `Iterator::step_by(k)`: keep an element when the
countdown hits zero, then restart it at `k - 1`. -/
def stepByAux (k : Nat) : Nat → List Nat → List Nat
  | _, [] => []
  | 0, x :: xs => x :: stepByAux k (k - 1) xs
  | c + 1, _ :: xs => stepByAux k c xs

/-- `Iterator::step_by(k)`: elements at indices `0, k, 2k, …`. -/
def everyNth (k : Nat) (l : List Nat) : List Nat := stepByAux k 0 l

/-- `parse_step` (parser.rs lines 376-417): a base (`*`, range, or single
value extended to the upper bound) followed by `/` and a `u64` step, with the
committing zero/overflow/range checks on the step. -/
def parse_step (lo hi : Nat) (bnd : P Nat) : P (List Nat) :=
  tryMapCut
    (pseq
      (altL [parse_asterisk lo hi, parse_range lo hi bnd,
             pmap bnd (fun n => List.range' n (hi + 1 - n))])
      (pseq (plit "/") (decUint u64Max)))
    (fun x =>
      let candidates := x.1
      let step := x.2.2
      if step = 0 then .error .stepZero
      else if step > 255 then .error (.stepOutOfRange lo hi step)
      else if lo ≤ step ∧ step ≤ hi then .ok (everyNth step candidates)
      else .error (.stepOutOfRange lo hi step))

/-- The parser's tagged term values (`PossibleValue`, lib.rs lines 52-87). -/
inductive PossibleValue where
  | Literal (n : Nat)
  | NearestWeekday (n : Nat)
  | LastDayOfMonth
  | LastDayOfWeek (w : Nat)
  | NthDayOfWeek (nth : Nat) (w : Nat)
deriving DecidableEq, Repr

/-- Tail of `separated(1.., item, ",")` (models winnow): repeatedly a comma
then an item; a backtracking failure of either ends the repetition (input
restored to before the comma), a committing failure aborts.  Each iteration
consumes at least the comma, so `fuel := input length + 1` never runs out;
exhausted fuel conservatively backtracks. -/
def sepTail (item : P α) : Nat → List Char → List α → PRes (List α)
  | 0, _, _ => .back .malformed
  | fuel + 1, i, acc =>
    match plit "," i with
    | .ok _ r =>
      match item r with
      | .ok a r2 => sepTail item fuel r2 (a :: acc)
      | .back _ => .ok acc.reverse i
      | .cut e => .cut e
    | .back _ => .ok acc.reverse i
    | .cut e => .cut e

/-- `separated(1.., item, ",")`. -/
def separated1 (item : P α) : P (List α) := fun i =>
  match item i with
  | .ok a r => sepTail item (r.length + 1) r [a]
  | .back e => .back e
  | .cut e => .cut e

/-- `parse_list` (parser.rs lines 419-425): a comma list followed by `eof`,
flattened. -/
def parse_list (item : P (List PossibleValue)) : P (List PossibleValue) :=
  fun i =>
    match separated1 item i with
    | .ok xss r =>
      match eofP r with
      | .ok _ _ => .ok xss.flatten []
      | .back e => .back e
      | .cut e => .cut e
    | .back e => .back e
    | .cut e => .cut e

/-! ## Field parsers (parser.rs) -/

/-- Collect `Literal` values into a `BTreeSet` (the non-`Literal` arm of
`do_parse_number_only` is `unreachable!`: number-only items only ever emit
literals). -/
def collectLiterals (vs : List PossibleValue) : PossibleLiterals :=
  ⟨vs.foldl (fun acc v =>
    match v with
    | .Literal n => btreeInsert n acc
    | _ => acc) []⟩

/-- `do_parse_number_only` (parser.rs lines 280-314): the item `alt` tries
step, range, single number, asterisk, in that order. -/
def do_parse_number_only (lo hi : Nat) : P PossibleLiterals :=
  pmap
    (parse_list (altL [
      pmap (parse_step lo hi (parse_single_number lo hi))
        (List.map PossibleValue.Literal),
      pmap (parse_range lo hi (parse_single_number lo hi))
        (List.map PossibleValue.Literal),
      pmap (parse_single_number lo hi) (fun n => [PossibleValue.Literal n]),
      pmap (parse_asterisk lo hi) (List.map PossibleValue.Literal)]))
    collectLiterals

/-- `parse_minutes`. -/
def parse_minutes : P PossibleLiterals := do_parse_number_only 0 59

/-- `parse_hours`. -/
def parse_hours : P PossibleLiterals := do_parse_number_only 0 23

/-- `parse_months`. -/
def parse_months : P PossibleLiterals := do_parse_number_only 1 12

/-- `parse_days_of_month` (parser.rs lines 261-263): in this snapshot of the
source the day-of-month field parser accepts numbers only. -/
def parse_days_of_month : P PossibleLiterals := do_parse_number_only 1 31

/-- `norm_sunday` (parser.rs lines 175-181): day-of-week `0` becomes `7`. -/
def norm_sunday (n : Nat) : Nat := if n ≠ 0 then n else 7

/-- `make_weekday` (parser.rs lines 183-186): `Weekday::from_monday_one_offset`
after `norm_sunday`; in the Monday=1 … Sunday=7 model this is `norm_sunday`
itself (the `expect` never fires: inputs come from the `0..=7` range). -/
def make_weekday (n : Nat) : Nat := norm_sunday n

/-- `parse_single_day_of_week` (parser.rs lines 188-201): three-letter
aliases or a number in `0..=7`. -/
def parse_single_day_of_week : P Nat :=
  altL [
    pmap (plit "SUN") (fun _ => 0),
    pmap (plit "MON") (fun _ => 1),
    pmap (plit "TUE") (fun _ => 2),
    pmap (plit "WED") (fun _ => 3),
    pmap (plit "THU") (fun _ => 4),
    pmap (plit "FRI") (fun _ => 5),
    pmap (plit "SAT") (fun _ => 6),
    parse_single_number 0 7]

/-- `parse_single_day_of_week_ext` (parser.rs lines 203-213): `<w>L`,
`<w>#<n>` (with `n` parsed as a bare `dec_uint::<u8>` — no range check), or a
plain weekday. -/
def parse_single_day_of_week_ext : P PossibleValue :=
  altL [
    pmap (pseq parse_single_day_of_week (plit "L"))
      (fun x => .LastDayOfWeek (make_weekday x.1)),
    pmap (pseq parse_single_day_of_week (pseq (plit "#") (decUint 255)))
      (fun x => .NthDayOfWeek x.2.2 (make_weekday x.1)),
    pmap parse_single_day_of_week (fun n => .Literal (norm_sunday n))]

/-- `PossibleDaysOfWeek` — the output type of this snapshot's
`parse_days_of_week` (it carries no `start_with_asterisk` flag). -/
structure PossibleDaysOfWeek where
  literals : List Nat
  last_days_of_week : List Nat
  nth_days_of_week : List (Nat × Nat)
deriving DecidableEq, Repr

/-- `HashSet::insert` modelled as append-if-absent. -/
def hashInsert [BEq α] (x : α) (l : List α) : List α :=
  if l.contains x then l else l ++ [x]

/-- The collection loop of `parse_days_of_week` (parser.rs lines 238-253). -/
def collectDow (vs : List PossibleValue) : PossibleDaysOfWeek :=
  vs.foldl (fun acc v =>
    match v with
    | .Literal n => { acc with literals := btreeInsert n acc.literals }
    | .LastDayOfWeek w =>
      { acc with last_days_of_week := hashInsert w acc.last_days_of_week }
    | .NthDayOfWeek nth w =>
      { acc with nth_days_of_week := hashInsert (nth, w) acc.nth_days_of_week }
    | _ => acc) ⟨[], [], []⟩

/-- `parse_days_of_week` (parser.rs lines 172-259): step, range, extended
single term, asterisk — steps, ranges and asterisks map their expansion
through `norm_sunday` into literals. -/
def parse_days_of_week : P PossibleDaysOfWeek :=
  pmap
    (parse_list (altL [
      pmap (parse_step 0 7 parse_single_day_of_week)
        (List.map (fun n => PossibleValue.Literal (norm_sunday n))),
      pmap (parse_range 0 7 parse_single_day_of_week)
        (List.map (fun n => PossibleValue.Literal (norm_sunday n))),
      pmap parse_single_day_of_week_ext (fun v => [v]),
      pmap (parse_asterisk 0 7)
        (List.map (fun n => PossibleValue.Literal (norm_sunday n)))]))
    collectDow

/-- Fragment of the host IANA zone database consulted by
`jiff::tz::TimeZone::get` (models the external zone lookup; only the zones a
theorem mentions need to be present). -/
def knownTimezones : List String := ["UTC", "Asia/Shanghai"]

/-- `parse_timezone` (parser.rs lines 265-277): `take_while(0.., |_| true)`
consumes the whole input, then the committing zone lookup. -/
def parse_timezone : P (List Char) := fun i =>
  if knownTimezones.any (fun z => z.data == i) then .ok i []
  else .cut (.unknownTimezone i)

/-! ## `parse_crontab` (parser.rs lines 71-138) -/

/-- `Parser::parse`: run a parser on a whole field; anything but a full-input
success is a `ParseError`. -/
def runField (p : P α) (i : List Char) : Except PErr α :=
  match p i with
  | .ok a [] => .ok a
  | .ok _ (_ :: _) => .error .malformed
  | .back e => .error e
  | .cut e => .error e

/-- Crontab as produced by this snapshot's `parse_crontab` (parser.rs lines
130-137): day-of-month as plain literals, day-of-week without the asterisk
flag, and the zone as its looked-up name. -/
structure CrontabP where
  minutes : PossibleLiterals
  hours : PossibleLiterals
  days_of_month : PossibleLiterals
  months : PossibleLiterals
  days_of_week : PossibleDaysOfWeek
  timezone : List Char
deriving DecidableEq, Repr

/-- Rust `&s[a..b]`: `none` models the out-of-bounds panic. -/
def strSlice (l : List Char) (a b : Nat) : Option (List Char) :=
  if a ≤ b ∧ b ≤ l.length then some ((l.drop a).take (b - a)) else none

/-- Rust `&s[a..]`: `none` models the out-of-bounds panic. -/
def strFrom (l : List Char) (a : Nat) : Option (List Char) :=
  if a ≤ l.length then some (l.drop a) else none

/-- `str::find(' ')`. -/
def findSp (l : List Char) : Option Nat := l.findIdx? (fun c => c == ' ')

/-- One `X_start = prev_end + 1; X_end = normalized[X_start..].find(' ')…;
X_part = &normalized[X_start..X_end]` step of `parse_crontab`; `none` is a
slicing panic. -/
def fieldSpan (n : List Char) (start : Nat) : Option (Nat × List Char) :=
  match strFrom n start with
  | none => none
  | some tl =>
    let e := match findSp tl with
      | some i => i + start
      | none => n.length
    match strSlice n start e with
    | none => none
    | some part => some (e, part)

/-- `parse_crontab` (parser.rs lines 71-138): normalize, then carve the six
fields out of the normalized string by searching for single spaces, parsing
each in order.  The outer `Option` models panics of the Rust string slicing;
the inner `Except` is the function's `Result`. -/
def parse_crontab (input : String) : Option (Except PErr CrontabP) :=
  let n := normalizeL input.data
  let minutesEnd := (findSp n).getD n.length
  match strSlice n 0 minutesEnd with
  | none => none
  | some minutesPart =>
    match runField parse_minutes minutesPart with
    | .error e => some (.error e)
    | .ok minutes =>
      match fieldSpan n (minutesEnd + 1) with
      | none => none
      | some (hoursEnd, hoursPart) =>
        match runField parse_hours hoursPart with
        | .error e => some (.error e)
        | .ok hours =>
          match fieldSpan n (hoursEnd + 1) with
          | none => none
          | some (domEnd, domPart) =>
            match runField parse_days_of_month domPart with
            | .error e => some (.error e)
            | .ok days_of_month =>
              match fieldSpan n (domEnd + 1) with
              | none => none
              | some (monthsEnd, monthsPart) =>
                match runField parse_months monthsPart with
                | .error e => some (.error e)
                | .ok months =>
                  match fieldSpan n (monthsEnd + 1) with
                  | none => none
                  | some (dowEnd, dowPart) =>
                    match runField parse_days_of_week dowPart with
                    | .error e => some (.error e)
                    | .ok days_of_week =>
                      match strSlice n (dowEnd + 1) n.length with
                      | none => none
                      | some tzPart =>
                        match runField parse_timezone tzPart with
                        | .error e => some (.error e)
                        | .ok timezone =>
                          some (.ok ⟨minutes, hours, days_of_month, months,
                                     days_of_week, timezone⟩)

/-! ## Spec-modelled day-of-month field parser

The crate's own tests (lib.rs lines 490-514) parse day-of-month fields such
as `17W,L` and `1W`, and lib.rs declares `ParsedDaysOfMonth` with
`last_day_of_month` and `nearest_weekdays` (lines 143-152), but the revision
of parser.rs in the tree still has the number-only `parse_days_of_month`
above and never constructs `ParsedDaysOfMonth`: the day-of-month sub-parser
with `L`/`W` support is code of this repository missing from the tree. -/

/-- Modelled from the spec: the missing day-of-month sub-parser.  "Day-of-month
additionally accepts `L` (last day of month) and `<d>W` (nearest weekday to
day `d`).  Neither `L` nor `W` may be combined with range or step operators;
each is a single term on its own but may appear inside a comma list."  Step,
range, single-number, and asterisk terms are as in `do_parse_number_only`;
`L` and `<d>W` are additional stand-alone terms of the comma list. -/
def parse_days_of_month_spec : P (List PossibleValue) :=
  parse_list (altL [
    pmap (parse_step 1 31 (parse_single_number 1 31))
      (List.map PossibleValue.Literal),
    pmap (parse_range 1 31 (parse_single_number 1 31))
      (List.map PossibleValue.Literal),
    pmap (plit "L") (fun _ => [PossibleValue.LastDayOfMonth]),
    pmap (pseq (parse_single_number 1 31) (plit "W"))
      (fun x => [PossibleValue.NearestWeekday x.1]),
    pmap (parse_single_number 1 31) (fun n => [PossibleValue.Literal n]),
    pmap (parse_asterisk 1 31) (List.map PossibleValue.Literal)])

/-- Modelled from the spec: collection of the day-of-month terms into
`ParsedDaysOfMonth` (`wildcard_origin`/`start_with_asterisk` records whether
the field began with `*`). -/
def collectDom (startAst : Bool) (vs : List PossibleValue) : ParsedDaysOfMonth :=
  vs.foldl (fun acc v =>
    match v with
    | .Literal n => { acc with literals := btreeInsert n acc.literals }
    | .LastDayOfMonth => { acc with last_day_of_month := true }
    | .NearestWeekday n =>
      { acc with nearest_weekdays := btreeInsert n acc.nearest_weekdays }
    | _ => acc) ⟨[], false, [], startAst⟩

/-- Modelled from the spec: the full day-of-month field parse with `L`/`W`
support. -/
def parse_dom_field (i : List Char) : Except PErr ParsedDaysOfMonth :=
  match runField parse_days_of_month_spec i with
  | .ok vs => .ok (collectDom (i.head? == some '*') vs)
  | .error e => .error e

/-! ## Lemmas: the normalizer -/

/-- Every token emitted by the splitter is nonempty and whitespace-free. -/
theorem splitWsAux_tokens_wf (s : List Char) :
    ∀ acc, (∀ c ∈ acc, isAsciiWs c = false) →
      ∀ t ∈ splitWsAux s acc, t ≠ [] ∧ ∀ c ∈ t, isAsciiWs c = false := by
  induction s with
  | nil =>
    intro acc hacc t ht
    rw [splitWsAux] at ht
    by_cases h : acc.isEmpty = true
    · rw [if_pos h] at ht
      simp at ht
    · rw [if_neg h] at ht
      have hta : t = acc.reverse := by simpa using ht
      subst hta
      refine ⟨by simpa [List.isEmpty_iff] using h, ?_⟩
      intro c hc
      exact hacc c (by simpa using hc)
  | cons c cs ih =>
    intro acc hacc t ht
    rw [splitWsAux] at ht
    by_cases hw : isAsciiWs c = true
    · rw [if_pos hw] at ht
      by_cases h : acc.isEmpty = true
      · rw [if_pos h] at ht
        exact ih [] (by simp) t ht
      · rw [if_neg h] at ht
        rcases List.mem_cons.mp ht with hta | ht
        · subst hta
          refine ⟨by simpa [List.isEmpty_iff] using h, ?_⟩
          intro x hx
          exact hacc x (by simpa using hx)
        · exact ih [] (by simp) t ht
    · rw [if_neg hw] at ht
      refine ih (c :: acc) ?_ t ht
      intro x hx
      rcases List.mem_cons.mp hx with rfl | hx
      · simpa using hw
      · exact hacc x hx

/-- Reading a whitespace-free token accumulates its characters. -/
theorem splitWsAux_token_append (t : List Char) :
    ∀ acc xs, (∀ c ∈ t, isAsciiWs c = false) →
      splitWsAux (t ++ xs) acc = splitWsAux xs (t.reverse ++ acc) := by
  induction t with
  | nil =>
    intro acc xs _
    simp
  | cons c t' ih =>
    intro acc xs h
    have hc : isAsciiWs c = false := h c (by simp)
    have ht' : ∀ x ∈ t', isAsciiWs x = false := fun x hx => h x (by simp [hx])
    calc splitWsAux ((c :: t') ++ xs) acc
        = splitWsAux (t' ++ xs) (c :: acc) := by
          rw [List.cons_append, splitWsAux, if_neg (by simp [hc])]
      _ = splitWsAux xs (t'.reverse ++ (c :: acc)) := ih (c :: acc) xs ht'
      _ = splitWsAux xs ((c :: t').reverse ++ acc) := by simp

/-- Splitting is a retraction of single-space joining on well-formed token
lists. -/
theorem splitWs_joinSp (ts : List (List Char))
    (h : ∀ t ∈ ts, t ≠ [] ∧ ∀ c ∈ t, isAsciiWs c = false) :
    splitWs (joinSp ts) = ts := by
  induction ts with
  | nil =>
    simp [splitWs, joinSp, splitWsAux]
  | cons t ts' ih =>
    have hne : t ≠ [] := (h t (by simp)).1
    have hwf : ∀ c ∈ t, isAsciiWs c = false := (h t (by simp)).2
    have hner : ¬(t.reverse.isEmpty = true) := by
      simpa [List.isEmpty_iff] using hne
    cases ts' with
    | nil =>
      rw [splitWs, joinSp, ← List.append_nil t,
        splitWsAux_token_append t [] [] hwf]
      rw [splitWsAux, if_neg (by simpa using hner)]
      simp
    | cons u us =>
      have hrest : ∀ x ∈ u :: us, x ≠ [] ∧ ∀ c ∈ x, isAsciiWs c = false :=
        fun x hx => h x (List.mem_cons_of_mem t hx)
      rw [splitWs, joinSp]
      rw [splitWsAux_token_append t [] (' ' :: joinSp (u :: us)) hwf]
      rw [splitWsAux, if_pos (by decide), if_neg (by simpa using hner)]
      simp only [List.append_nil, List.reverse_reverse]
      exact congrArg (t :: ·) (ih hrest)

/-- `normalize_crontab` is idempotent on character lists. -/
theorem normalizeL_idem (s : List Char) :
    normalizeL (normalizeL s) = normalizeL s := by
  unfold normalizeL
  exact congrArg joinSp
    (splitWs_joinSp (splitWs s) (splitWsAux_tokens_wf s [] (by simp)))

/-! ## Lemmas: calendar arithmetic is strictly increasing -/

/-- Strict order on the date (year, month, day) prefix. -/
def dLt3 (a b : DateTime) : Prop :=
  a.y < b.y ∨ (a.y = b.y ∧ (a.mo < b.mo ∨ (a.mo = b.mo ∧ a.d < b.d)))

/-- Strict order on the (year, month, day, hour) prefix. -/
def dLt4 (a b : DateTime) : Prop :=
  a.y < b.y ∨ (a.y = b.y ∧ (a.mo < b.mo ∨ (a.mo = b.mo ∧
    (a.d < b.d ∨ (a.d = b.d ∧ a.h < b.h)))))

/-- Strict order on the (year, month, day, hour, minute) prefix. -/
def dLt5 (a b : DateTime) : Prop :=
  a.y < b.y ∨ (a.y = b.y ∧ (a.mo < b.mo ∨ (a.mo = b.mo ∧
    (a.d < b.d ∨ (a.d = b.d ∧ (a.h < b.h ∨ (a.h = b.h ∧ a.mi < b.mi)))))))

theorem dLt3_trans {a b c : DateTime} (h1 : dLt3 a b) (h2 : dLt3 b c) :
    dLt3 a c := by
  unfold dLt3 at h1 h2 ⊢
  omega

theorem dtLt_trans {a b c : DateTime} (h1 : dtLt a b) (h2 : dtLt b c) :
    dtLt a c := by
  unfold dtLt at h1 h2 ⊢
  omega

theorem dLt3_addOneDay (z : DateTime) : dLt3 z (addOneDay z) := by
  unfold dLt3 addOneDay
  by_cases h1 : z.d < daysInMonth z.y z.mo <;>
    by_cases h2 : z.mo < 12 <;> simp [h1, h2] <;> try omega

theorem dLt3_addDays (n : Nat) (z : DateTime) :
    addDays n z = z ∨ dLt3 z (addDays n z) := by
  induction n generalizing z with
  | zero => exact Or.inl rfl
  | succ m ih =>
    rw [addDays]
    rcases ih (addOneDay z) with h | h
    · rw [h]
      exact Or.inr (dLt3_addOneDay z)
    · exact Or.inr (dLt3_trans (dLt3_addOneDay z) h)

theorem dLt3_addDays_succ (n : Nat) (z : DateTime) :
    dLt3 z (addDays (n + 1) z) := by
  rw [addDays]
  rcases dLt3_addDays n (addOneDay z) with h | h
  · rw [h]
    exact dLt3_addOneDay z
  · exact dLt3_trans (dLt3_addOneDay z) h

theorem dtLt_truncDay_of_dLt3 {z w : DateTime} (h : dLt3 z w) :
    dtLt z (truncDay w) := by
  unfold dLt3 at h
  unfold dtLt truncDay
  simp only
  omega

theorem dLt4_addOneHour (z : DateTime) : dLt4 z (addOneHour z) := by
  unfold addOneHour
  by_cases h : z.h < 23
  · unfold dLt4
    simp [h]
  · have h3 := dLt3_addOneDay z
    unfold dLt3 at h3
    unfold dLt4
    simp [h]
    omega

theorem dtLt_truncHour_of_dLt4 {z w : DateTime} (h : dLt4 z w) :
    dtLt z (truncHour w) := by
  unfold dLt4 at h
  unfold dtLt truncHour
  simp only
  omega

theorem dLt5_addOneMinute (z : DateTime) : dLt5 z (addOneMinute z) := by
  unfold addOneMinute
  by_cases h : z.mi < 59
  · unfold dLt5
    simp [h]
  · have h4 := dLt4_addOneHour z
    unfold dLt4 at h4
    unfold dLt5
    simp [h]
    omega

theorem dtLt_truncMinute_of_dLt5 {z w : DateTime} (h : dLt5 z w) :
    dtLt z (truncMinute w) := by
  unfold dLt5 at h
  unfold dtLt truncMinute
  simp only
  omega

/-- The first solver step `advance_time_and_round(zoned, 1.minute(),
Unit::Minute)` is strictly increasing. -/
theorem dtLt_truncMinute_addOneMinute (z : DateTime) :
    dtLt z (truncMinute (addOneMinute z)) :=
  dtLt_truncMinute_of_dLt5 (dLt5_addOneMinute z)

/-! ## Lemmas: the solver loop -/

/-- Any success of the `find_next` loop is reached from the current candidate
by strictly increasing steps, stays minute-truncated, and satisfies all five
field matchers (they are exactly the checks guarding the `break Ok(next)`). -/
theorem findNextLoop_ok_props (c : Crontab) (bound : DateTime) :
    ∀ fuel next t', findNextLoop c bound fuel next = some (.ok t') →
      (next = t' ∨ dtLt next t') ∧
      (next.s = 0 → next.ns = 0 → t'.s = 0 ∧ t'.ns = 0) ∧
      c.months.matches t'.mo = true ∧
      c.days_of_month.matches t' = true ∧
      c.hours.matches t'.h = true ∧
      c.minutes.matches t'.mi = true ∧
      c.days_of_week.matches t' = true := by
  intro fuel
  induction fuel with
  | zero =>
    intro next t' h
    simp [findNextLoop] at h
  | succ m ih =>
    intro next t' h
    rw [findNextLoop] at h
    by_cases hb : dtLt bound next
    · rw [if_pos hb] at h
      simp at h
    · rw [if_neg hb] at h
      by_cases hm : c.months.matches next.mo = true
      · rw [if_neg (by simp [hm])] at h
        by_cases hdm : c.days_of_month.matches next = true
        · rw [if_neg (by simp [hdm])] at h
          by_cases hh : c.hours.matches next.h = true
          · rw [if_neg (by simp [hh])] at h
            by_cases hmi : c.minutes.matches next.mi = true
            · rw [if_neg (by simp [hmi])] at h
              by_cases hdw : c.days_of_week.matches next = true
              · rw [if_neg (by simp [hdw])] at h
                have hnt : next = t' := by simpa using h
                subst hnt
                exact ⟨Or.inl rfl, fun hs hns => ⟨hs, hns⟩,
                  hm, hdm, hh, hmi, hdw⟩
              · rw [if_pos (by simp [hdw])] at h
                have step := dtLt_truncDay_of_dLt3 (dLt3_addOneDay next)
                rcases ih _ t' h with ⟨ord, hs, rest⟩
                refine ⟨?_, fun _ _ => hs rfl rfl, rest⟩
                rcases ord with heq | hlt
                · exact Or.inr (heq ▸ step)
                · exact Or.inr (dtLt_trans step hlt)
            · rw [if_pos (by simp [hmi])] at h
              have step := dtLt_truncMinute_addOneMinute next
              rcases ih _ t' h with ⟨ord, hs, rest⟩
              refine ⟨?_, fun _ _ => hs rfl rfl, rest⟩
              rcases ord with heq | hlt
              · exact Or.inr (heq ▸ step)
              · exact Or.inr (dtLt_trans step hlt)
          · rw [if_pos (by simp [hh])] at h
            have step := dtLt_truncHour_of_dLt4 (dLt4_addOneHour next)
            rcases ih _ t' h with ⟨ord, hs, rest⟩
            refine ⟨?_, fun _ _ => hs rfl rfl, rest⟩
            rcases ord with heq | hlt
            · exact Or.inr (heq ▸ step)
            · exact Or.inr (dtLt_trans step hlt)
        · rw [if_pos (by simp [hdm])] at h
          have step := dtLt_truncDay_of_dLt3 (dLt3_addOneDay next)
          rcases ih _ t' h with ⟨ord, hs, rest⟩
          refine ⟨?_, fun _ _ => hs rfl rfl, rest⟩
          rcases ord with heq | hlt
          · exact Or.inr (heq ▸ step)
          · exact Or.inr (dtLt_trans step hlt)
      · rw [if_pos (by simp [hm])] at h
        have step :
            dtLt next (truncDay (addDays
              (daysInMonth next.y next.mo - next.d + 1) next)) := by
          have : daysInMonth next.y next.mo - next.d + 1 =
              (daysInMonth next.y next.mo - next.d) + 1 := rfl
          rw [this]
          exact dtLt_truncDay_of_dLt3
            (dLt3_addDays_succ (daysInMonth next.y next.mo - next.d) next)
        rcases ih _ t' h with ⟨ord, hs, rest⟩
        refine ⟨?_, fun _ _ => hs rfl rfl, rest⟩
        rcases ord with heq | hlt
        · exact Or.inr (heq ▸ step)
        · exact Or.inr (dtLt_trans step hlt)

/-- C1: for every schedule and every start instant on which `Crontab::find_next`
succeeds, the returned zoned datetime is strictly after the start, is
truncated to minute resolution (second and sub-second fields zero), its
minute, hour and month belong to the schedule's sets, and the day-of-month
and day-of-week matchers both hold on it. -/
theorem find_next_round_trip (c : Crontab) (zoned t' : DateTime) (fuel : Nat)
    (h : find_next fuel c zoned = some (.ok t')) :
    dtLt zoned t' ∧ t'.s = 0 ∧ t'.ns = 0 ∧
    c.minutes.matches t'.mi = true ∧
    c.hours.matches t'.h = true ∧
    c.months.matches t'.mo = true ∧
    c.days_of_month.matches t' = true ∧
    c.days_of_week.matches t' = true := by
  unfold find_next at h
  rcases findNextLoop_ok_props c (addYears4 zoned) fuel _ t' h with
    ⟨ord, hs, hmo, hdm, hh, hmi, hdw⟩
  have h0 := dtLt_truncMinute_addOneMinute zoned
  have hzero := hs rfl rfl
  refine ⟨?_, hzero.1, hzero.2, hmi, hh, hmo, hdm, hdw⟩
  rcases ord with heq | hlt
  · exact heq ▸ h0
  · exact dtLt_trans h0 hlt

/-- Schedule of `2 4 * * * Asia/Shanghai` (a snapshot test of the crate). -/
def scheduleDaily : Crontab :=
  ⟨⟨[2]⟩, ⟨[4]⟩, ⟨List.range' 1 12⟩,
   ⟨List.range' 1 31, false, [], true⟩,
   ⟨List.range' 1 7, [], [], true⟩⟩

theorem find_next_round_trip_witness :
    dtLt ⟨2024, 9, 11, 19, 8, 35, 0⟩ (⟨2024, 9, 12, 4, 2, 0, 0⟩ : DateTime) ∧
    (⟨2024, 9, 12, 4, 2, 0, 0⟩ : DateTime).s = 0 ∧
    (⟨2024, 9, 12, 4, 2, 0, 0⟩ : DateTime).ns = 0 ∧
    scheduleDaily.minutes.matches (⟨2024, 9, 12, 4, 2, 0, 0⟩ : DateTime).mi = true ∧
    scheduleDaily.hours.matches (⟨2024, 9, 12, 4, 2, 0, 0⟩ : DateTime).h = true ∧
    scheduleDaily.months.matches (⟨2024, 9, 12, 4, 2, 0, 0⟩ : DateTime).mo = true ∧
    scheduleDaily.days_of_month.matches ⟨2024, 9, 12, 4, 2, 0, 0⟩ = true ∧
    scheduleDaily.days_of_week.matches ⟨2024, 9, 12, 4, 2, 0, 0⟩ = true :=
  find_next_round_trip scheduleDaily ⟨2024, 9, 11, 19, 8, 35, 0⟩
    ⟨2024, 9, 12, 4, 2, 0, 0⟩ 50 (by rfl)

/-! ## Lemmas: validity of datetimes under the solver's steps -/

/-- A well-formed wall-clock datetime (as produced by
`Timestamp::to_zoned`). -/
def ValidDT (t : DateTime) : Prop :=
  1 ≤ t.mo ∧ t.mo ≤ 12 ∧ 1 ≤ t.d ∧ t.d ≤ daysInMonth t.y t.mo ∧
  t.h ≤ 23 ∧ t.mi ≤ 59

instance (t : DateTime) : Decidable (ValidDT t) := by
  unfold ValidDT
  infer_instance

theorem one_le_daysInMonth (y mo : Nat) : 1 ≤ daysInMonth y mo := by
  unfold daysInMonth
  split
  · split <;> omega
  · split <;> omega

theorem validDT_addOneDay {t : DateTime} (h : ValidDT t) :
    ValidDT (addOneDay t) := by
  unfold ValidDT at h ⊢
  unfold addOneDay
  by_cases h1 : t.d < daysInMonth t.y t.mo
  · simp only [if_pos h1]
    omega
  · by_cases h2 : t.mo < 12
    · rw [if_neg h1, if_pos h2]
      have := one_le_daysInMonth t.y (t.mo + 1)
      simp only
      omega
    · rw [if_neg h1, if_neg h2]
      have := one_le_daysInMonth (t.y + 1) 1
      simp only
      omega

theorem validDT_addDays {t : DateTime} (n : Nat) (h : ValidDT t) :
    ValidDT (addDays n t) := by
  induction n generalizing t with
  | zero => exact h
  | succ m ih => exact ih (validDT_addOneDay h)

theorem validDT_addOneHour {t : DateTime} (h : ValidDT t) :
    ValidDT (addOneHour t) := by
  unfold addOneHour
  by_cases h1 : t.h < 23
  · unfold ValidDT at h ⊢
    simp only [if_pos h1]
    omega
  · rw [if_neg h1]
    have h2 := validDT_addOneDay h
    unfold ValidDT at h2 ⊢
    simp only
    omega

theorem validDT_addOneMinute {t : DateTime} (h : ValidDT t) :
    ValidDT (addOneMinute t) := by
  unfold addOneMinute
  by_cases h1 : t.mi < 59
  · unfold ValidDT at h ⊢
    simp only [if_pos h1]
    omega
  · rw [if_neg h1]
    have h2 := validDT_addOneHour h
    unfold ValidDT at h2 ⊢
    simp only
    omega

theorem validDT_truncDay {t : DateTime} (h : ValidDT t) :
    ValidDT (truncDay t) := by
  unfold ValidDT at h ⊢
  unfold truncDay
  simp only
  omega

theorem validDT_truncHour {t : DateTime} (h : ValidDT t) :
    ValidDT (truncHour t) := by
  unfold ValidDT at h ⊢
  unfold truncHour
  simp only
  omega

theorem validDT_truncMinute {t : DateTime} (h : ValidDT t) :
    ValidDT (truncMinute t) := by
  unfold ValidDT at h ⊢
  unfold truncMinute
  simp only
  omega

theorem daysInMonth_feb_le (y : Nat) : daysInMonth y 2 ≤ 29 := by
  unfold daysInMonth
  split
  · split <;> omega
  · omega

/-! ## C7: exhaustion on unsatisfiable schedules -/

/-- Schedule of `0 0 30 2 * UTC`: minute 0, hour 0, day-of-month 30,
month February, any weekday. -/
def scheduleFeb30 : Crontab :=
  ⟨⟨[0]⟩, ⟨[0]⟩, ⟨[2]⟩,
   ⟨[30], false, [], false⟩,
   ⟨List.range' 1 7, [], [], true⟩⟩

/-- When no valid candidate within the bound satisfies all five matchers, the
`find_next` loop can never break with `Ok` (the break is guarded by exactly
those matchers and by `next ≤ bound`), so whatever it returns is the
exhaustion error, which carries the last candidate examined. -/
theorem findNextLoop_unsat (c : Crontab) (bound : DateTime)
    (hunsat : ∀ z : DateTime, ValidDT z → ¬ dtLt bound z →
      ¬(c.months.matches z.mo = true ∧ c.days_of_month.matches z = true ∧
        c.hours.matches z.h = true ∧ c.minutes.matches z.mi = true ∧
        c.days_of_week.matches z = true)) :
    ∀ fuel next r, ValidDT next →
      findNextLoop c bound fuel next = some r →
      ∃ last, r = .error (.exhausted last) := by
  intro fuel
  induction fuel with
  | zero =>
    intro next r _ h
    simp [findNextLoop] at h
  | succ m ih =>
    intro next r hv h
    rw [findNextLoop] at h
    by_cases hb : dtLt bound next
    · rw [if_pos hb] at h
      exact ⟨next, by simpa using h.symm⟩
    · rw [if_neg hb] at h
      by_cases hm : c.months.matches next.mo = true
      · rw [if_neg (by simp [hm])] at h
        by_cases hdm : c.days_of_month.matches next = true
        · rw [if_neg (by simp [hdm])] at h
          by_cases hh : c.hours.matches next.h = true
          · rw [if_neg (by simp [hh])] at h
            by_cases hmi : c.minutes.matches next.mi = true
            · rw [if_neg (by simp [hmi])] at h
              by_cases hdw : c.days_of_week.matches next = true
              · exact absurd ⟨hm, hdm, hh, hmi, hdw⟩ (hunsat next hv hb)
              · rw [if_pos (by simp [hdw])] at h
                exact ih _ r (validDT_truncDay (validDT_addOneDay hv)) h
            · rw [if_pos (by simp [hmi])] at h
              exact ih _ r (validDT_truncMinute (validDT_addOneMinute hv)) h
          · rw [if_pos (by simp [hh])] at h
            exact ih _ r (validDT_truncHour (validDT_addOneHour hv)) h
        · rw [if_pos (by simp [hdm])] at h
          exact ih _ r (validDT_truncDay (validDT_addOneDay hv)) h
      · rw [if_pos (by simp [hm])] at h
        exact ih _ r (validDT_truncDay (validDT_addDays _ hv)) h

set_option maxRecDepth 40000 in
/-- C7: for every schedule and every valid start instant such that no valid
datetime within `start + 4 years` satisfies all five matchers, `find_next`
returns, whenever it terminates, the four-year exhaustion error (message
`"failed to find next timestamp in four years; end with {next}"`) carrying
the last candidate instant examined — never a success.  The schedule of
`0 0 30 2 * UTC` is such a schedule from every start (no valid datetime at
all satisfies its month and day-of-month matchers: February caps the day at
29 while the matcher demands 30), and concretely from 2024-01-01T00:00:00
UTC it terminates with the exhaustion error whose last candidate is
2028-02-01T00:00:00. -/
theorem find_next_unsatisfiable_exhausts :
    (∀ (c : Crontab) (t : DateTime),
      (∀ z : DateTime, ValidDT z → ¬ dtLt (addYears4 t) z →
        ¬(c.months.matches z.mo = true ∧ c.days_of_month.matches z = true ∧
          c.hours.matches z.h = true ∧ c.minutes.matches z.mi = true ∧
          c.days_of_week.matches z = true)) →
      ∀ (fuel : Nat) (r : Except FindError DateTime), ValidDT t →
        find_next fuel c t = some r →
        ∃ last, r = .error (.exhausted last)) ∧
    (∀ z : DateTime, ValidDT z →
      ¬(scheduleFeb30.months.matches z.mo = true ∧
        scheduleFeb30.days_of_month.matches z = true ∧
        scheduleFeb30.hours.matches z.h = true ∧
        scheduleFeb30.minutes.matches z.mi = true ∧
        scheduleFeb30.days_of_week.matches z = true)) ∧
    find_next 400 scheduleFeb30 ⟨2024, 1, 1, 0, 0, 0, 0⟩ =
      some (.error (.exhausted ⟨2028, 2, 1, 0, 0, 0, 0⟩)) := by
  refine ⟨?_, ?_, rfl⟩
  · intro c t hunsat fuel r hv h
    unfold find_next at h
    exact findNextLoop_unsat c (addYears4 t) hunsat fuel _ r
      (validDT_truncMinute (validDT_addOneMinute hv)) h
  · rintro z hv ⟨hm, hdm, -, -, -⟩
    have hmo2 : z.mo = 2 := by
      simpa [scheduleFeb30, PossibleLiterals.matches, eq_comm] using hm
    have hd30 : z.d = 30 := by
      simpa [scheduleFeb30, ParsedDaysOfMonth.matches, eq_comm] using hdm
    have hle : z.d ≤ daysInMonth z.y z.mo := hv.2.2.2.1
    rw [hmo2] at hle
    have := daysInMonth_feb_le z.y
    omega

theorem find_next_unsatisfiable_exhausts_witness :
    ValidDT ⟨2024, 1, 1, 0, 0, 0, 0⟩ ∧
    ∃ last,
      (Except.error (FindError.exhausted ⟨2028, 2, 1, 0, 0, 0, 0⟩) :
        Except FindError DateTime) = .error (.exhausted last) :=
  ⟨by decide,
   find_next_unsatisfiable_exhausts.1 scheduleFeb30 ⟨2024, 1, 1, 0, 0, 0, 0⟩
     (fun z hv _ => find_next_unsatisfiable_exhausts.2.1 z hv) 400 _
     (by decide) find_next_unsatisfiable_exhausts.2.2⟩

/-! ## Decidable equality for `Except` results -/

instance {ε α : Type} [DecidableEq ε] [DecidableEq α] :
    DecidableEq (Except ε α) := fun a b =>
  match a, b with
  | .ok x, .ok y =>
    if h : x = y then isTrue (by rw [h]) else isFalse (by simp [h])
  | .error x, .error y =>
    if h : x = y then isTrue (by rw [h]) else isFalse (by simp [h])
  | .ok _, .error _ => isFalse (by simp)
  | .error _, .ok _ => isFalse (by simp)

/-! ## Claim theorems: normalizer -/

/-- C8: `normalize_crontab` is idempotent, and is the identity on strings
that already consist of nonempty whitespace-free tokens separated by single
spaces with no leading or trailing whitespace (i.e. on single-space joins of
such token lists). -/
theorem normalize_crontab_idempotent :
    (∀ s : String,
      normalize_crontab (normalize_crontab s) = normalize_crontab s) ∧
    (∀ (s : String) (ts : List (List Char)), s.data = joinSp ts →
      (∀ t ∈ ts, t ≠ [] ∧ ∀ c ∈ t, isAsciiWs c = false) →
      normalize_crontab s = s) := by
  constructor
  · intro s
    exact congrArg String.mk (normalizeL_idem s.data)
  · intro s ts hdata hwf
    obtain ⟨d⟩ := s
    simp only [String.data] at hdata
    unfold normalize_crontab
    simp only [String.data]
    rw [hdata]
    unfold normalizeL
    rw [splitWs_joinSp ts hwf]

theorem normalize_crontab_idempotent_witness :
    normalize_crontab (normalize_crontab "  2\t4  ") =
      normalize_crontab "  2\t4  " ∧
    normalize_crontab "2 4" = "2 4" :=
  ⟨normalize_crontab_idempotent.1 _,
   normalize_crontab_idempotent.2 "2 4" [['2'], ['4']] (by decide) (by decide)⟩

/-! ## Claim theorems: the two December matcher bugs -/

/-- C2 (code bug): with `L` recorded, `ParsedDaysOfMonth::matches` tests
`(value + 1.day()).month() > value.month()`, so on 2024-12-31 — the last day
of December, where one day later falls in a different (numerically smaller)
month and both the claim and the matcher's own documentation (lib.rs lines
70-74) require a match — it returns `false`. -/
theorem days_of_month_last_december_bug :
    ParsedDaysOfMonth.matches ⟨[], true, [], false⟩
      ⟨2024, 12, 31, 0, 0, 0, 0⟩ = false ∧
    (addOneDay ⟨2024, 12, 31, 0, 0, 0, 0⟩).mo ≠
      (⟨2024, 12, 31, 0, 0, 0, 0⟩ : DateTime).mo ∧
    (⟨2024, 12, 31, 0, 0, 0, 0⟩ : DateTime).d = daysInMonth 2024 12 := by
  decide

/-- C3 (code bug): with Monday in `last_days_of_week`,
`ParsedDaysOfWeek::matches` tests `(value + 1.week()).month() > value.month()`,
so on 2024-12-30 — a Monday that is the last Monday of December, whose next
occurrence falls in January of the following year — it returns `false`
although the claim requires a match there. -/
theorem days_of_week_last_december_bug :
    ParsedDaysOfWeek.matches ⟨[], [1], [], false⟩
      ⟨2024, 12, 30, 0, 0, 0, 0⟩ = false ∧
    weekday ⟨2024, 12, 30, 0, 0, 0, 0⟩ = 1 ∧
    (addDays 7 ⟨2024, 12, 30, 0, 0, 0, 0⟩).mo ≠
      (⟨2024, 12, 30, 0, 0, 0, 0⟩ : DateTime).mo := by
  decide

/-! ## Claim theorems: parser behaviour on concrete inputs -/

/-- C4 (code bug): on the five-token input `"* * * * *"` (the claim's own
example of a short input) all five present fields parse, and `parse_crontab`
then evaluates `&normalized[10..9]` for the timezone part — an out-of-bounds
string slice, i.e. a panic (`none` in this model), not a returned `Error`. -/
theorem parse_crontab_five_tokens_panics :
    parse_crontab "* * * * *" = none := by
  decide

/-- C6 (code bug): `parse_single_day_of_week_ext` parses the `#` ordinal with
a bare `dec_uint::<u8>` and applies no `[1,5]` range check, so the
day-of-week fields `TUE#6` and `TUE#0` — which the claim and lib.rs's own
documentation (lines 80-85: "must be followed by a number between one and
five") require to be rejected — parse successfully. -/
theorem dow_nth_out_of_range_accepted :
    runField parse_days_of_week "TUE#6".data = .ok ⟨[], [], [(6, 2)]⟩ ∧
    runField parse_days_of_week "TUE#0".data = .ok ⟨[], [], [(0, 2)]⟩ := by
  decide

/-- C9 counterexample: parsing of the day-of-week field is not invariant
under swapping `0` for `7`: as a step base, `0` expands from the bottom of
the `0..=7` domain while `7` is only the top value, so `0/2` and `7/2` both
parse but to different literal sets. -/
theorem dow_swap_zero_seven_counterexample :
    runField parse_days_of_week "0/2".data = .ok ⟨[2, 4, 6, 7], [], []⟩ ∧
    runField parse_days_of_week "7/2".data = .ok ⟨[7], [], []⟩ ∧
    runField parse_days_of_week "0/2".data ≠
      runField parse_days_of_week "7/2".data := by
  decide

/-- C9 (amended): the day-of-week input values `0` and `7` both denote Sunday
— `norm_sunday` sends both to `7` — so the single-token fields `0` and `7`
parse to identical schedules with literals set `{7}`, and a Sunday candidate
(2024-09-15) matches such a schedule; invariance under swapping `0` for `7`
holds for such stand-alone value tokens but not inside composite (step or
range) terms. -/
theorem dow_sunday_normalization :
    runField parse_days_of_week "0".data =
      runField parse_days_of_week "7".data ∧
    runField parse_days_of_week "7".data = .ok ⟨[7], [], []⟩ ∧
    norm_sunday 0 = 7 ∧ norm_sunday 7 = 7 ∧
    weekday ⟨2024, 9, 15, 0, 0, 0, 0⟩ = 7 ∧
    ParsedDaysOfWeek.matches ⟨[7], [], [], false⟩
      ⟨2024, 9, 15, 0, 0, 0, 0⟩ = true := by
  decide

/-! ## Claim theorems: the day-of-month `L`/`W` grammar (spec-modelled) -/

/-- Decimal rendering, fuelled structurally so that it evaluates in the
kernel (`fuel = n + 1` always suffices). -/
def decCharsAux : Nat → Nat → List Char
  | 0, _ => []
  | fuel + 1, n =>
    if n < 10 then [Char.ofNat (48 + n)]
    else decCharsAux fuel (n / 10) ++ [Char.ofNat (48 + n % 10)]

/-- Decimal rendering of a natural number. -/
def decChars (n : Nat) : List Char := decCharsAux (n + 1) n

/-- C5 (spec-modelled): the day-of-month field sub-parser accepts `L`
(recording `last_day_of_month = true`) and `<d>W` for every `d ∈ [1,31]`
(adding `d` to `nearest_weekdays`); each is a stand-alone term that may sit
in a top-level comma list (the field `17W,L` parses), and neither combines
with range or step operators. -/
theorem dom_field_ext_terms :
    parse_dom_field "17W,L".data = .ok ⟨[], true, [17], false⟩ ∧
    parse_dom_field "L".data = .ok ⟨[], true, [], false⟩ ∧
    (∀ d : Nat, d ≤ 31 → 1 ≤ d →
      parse_dom_field (decChars d ++ "W".data) = .ok ⟨[], false, [d], false⟩) ∧
    parse_dom_field "L-3".data = .error .malformed ∧
    parse_dom_field "L/2".data = .error .malformed ∧
    parse_dom_field "17W/2".data = .error .malformed ∧
    parse_dom_field "17W-19".data = .error .malformed := by
  decide

theorem dom_field_ext_terms_witness :
    parse_dom_field (decChars 17 ++ "W".data) =
      .ok ⟨[], false, [17], false⟩ :=
  dom_field_ext_terms.2.2.1 17 (by decide) (by decide)

/-! ## Lemmas: numeric tokens beyond `u8::MAX` -/

theorem takeWhile_isDigit_all {ds : List Char}
    (h : ∀ c ∈ ds, isDigitC c = true) : ds.takeWhile isDigitC = ds := by
  induction ds with
  | nil => rfl
  | cons c cs ih =>
    rw [List.takeWhile_cons, if_pos (h c (by simp))]
    rw [ih (fun x hx => h x (by simp [hx]))]

theorem decUint_all_digits {ds : List Char} {max : Nat} (hne : ds ≠ [])
    (hdig : ∀ c ∈ ds, isDigitC c = true) (hle : digitsVal ds ≤ max) :
    decUint max ds = .ok (digitsVal ds) [] := by
  unfold decUint
  rw [takeWhile_isDigit_all hdig]
  rw [if_neg (by simpa [List.isEmpty_iff] using hne)]
  rw [if_pos hle, List.drop_length]

theorem parse_single_number_overflow {ds : List Char} (lo hi : Nat)
    (hne : ds ≠ []) (hdig : ∀ c ∈ ds, isDigitC c = true)
    (hbig : 255 < digitsVal ds) (hle : digitsVal ds ≤ u64Max) :
    parse_single_number lo hi ds =
      .cut (.valueOutOfRange lo hi (digitsVal ds)) := by
  unfold parse_single_number tryMapCut
  rw [decUint_all_digits hne hdig hle]
  simp only [if_pos hbig]

theorem plit_star_digits {ds : List Char} (hne : ds ≠ [])
    (hdig : ∀ c ∈ ds, isDigitC c = true) :
    plit "*" ds = .back .malformed := by
  cases ds with
  | nil => exact absurd rfl hne
  | cons c cs =>
    have hc : isDigitC c = true := hdig c (by simp)
    have hnc : ('*' == c) = false := by
      cases hbc : ('*' == c)
      · rfl
      · rw [← eq_of_beq hbc] at hc
        exact absurd hc (by decide)
    unfold plit
    rw [if_neg ?_]
    show ¬("*".data.isPrefixOf (c :: cs) = true)
    have : "*".data = ['*'] := rfl
    rw [this]
    simp [List.isPrefixOf, hnc]

/-- A field made only of an over-`u8` digit token commits to the
range-violation error carrying the full value: the item `alt` backtracks past
`*`, then the range branch's first bound runs `parse_single_number`, whose
`try_map_cut` failure is committing and aborts the whole field parse. -/
theorem do_parse_number_only_overflow {ds : List Char} (lo hi : Nat)
    (hne : ds ≠ []) (hdig : ∀ c ∈ ds, isDigitC c = true)
    (hbig : 255 < digitsVal ds) (hle : digitsVal ds ≤ u64Max) :
    runField (do_parse_number_only lo hi) ds =
      .error (.valueOutOfRange lo hi (digitsVal ds)) := by
  have hpsn := parse_single_number_overflow lo hi hne hdig hbig hle
  have hast : parse_asterisk lo hi ds = .back .malformed := by
    unfold parse_asterisk pmap
    rw [plit_star_digits hne hdig]
  have hrange :
      parse_range lo hi (parse_single_number lo hi) ds =
        .cut (.valueOutOfRange lo hi (digitsVal ds)) := by
    unfold parse_range tryMapCut pseq
    rw [hpsn]
  have hstep :
      parse_step lo hi (parse_single_number lo hi) ds =
        .cut (.valueOutOfRange lo hi (digitsVal ds)) := by
    unfold parse_step tryMapCut pseq altL
    simp only [List.foldr, alt2, hast, hrange]
  unfold runField do_parse_number_only pmap parse_list separated1 altL
  simp only [List.foldr, alt2, hstep]

/-- Reading a digit token stops at a following non-digit (or at the end). -/
theorem takeWhile_isDigit_token {ds rest : List Char}
    (hdig : ∀ c ∈ ds, isDigitC c = true)
    (hrest : ∀ c, rest.head? = some c → isDigitC c = false) :
    (ds ++ rest).takeWhile isDigitC = ds := by
  induction ds with
  | nil =>
    cases rest with
    | nil => rfl
    | cons c cs =>
      simp only [List.nil_append, List.takeWhile_cons]
      rw [if_neg (by simp [hrest c rfl])]
  | cons c cs ih =>
    simp only [List.cons_append, List.takeWhile_cons]
    rw [if_pos (hdig c (by simp))]
    rw [ih (fun x hx => hdig x (by simp [hx]))]

theorem drop_length_append (ds rest : List Char) :
    (ds ++ rest).drop ds.length = rest := by
  induction ds with
  | nil => rfl
  | cons c cs ih => simpa using ih

/-- `dec_uint` on a digit token followed by a non-digit boundary. -/
theorem decUint_digits_token {ds rest : List Char} {max : Nat} (hne : ds ≠ [])
    (hdig : ∀ c ∈ ds, isDigitC c = true)
    (hrest : ∀ c, rest.head? = some c → isDigitC c = false)
    (hle : digitsVal ds ≤ max) :
    decUint max (ds ++ rest) = .ok (digitsVal ds) rest := by
  unfold decUint
  rw [takeWhile_isDigit_token hdig hrest]
  rw [if_neg (by simpa [List.isEmpty_iff] using hne)]
  rw [if_pos hle, drop_length_append]

/-- `dec_uint` success inversion: the decoded value is the full decimal value
of the consumed digit prefix — no truncation or wrap-around. -/
theorem decUint_ok {max : Nat} {i rest : List Char} {n : Nat}
    (h : decUint max i = .ok n rest) :
    n = digitsVal (i.takeWhile isDigitC) ∧ n ≤ max := by
  unfold decUint at h
  by_cases h1 : (i.takeWhile isDigitC).isEmpty = true
  · rw [if_pos h1] at h
    exact absurd h (by simp)
  · rw [if_neg h1] at h
    by_cases h2 : digitsVal (i.takeWhile isDigitC) ≤ max
    · rw [if_pos h2] at h
      simp only [PRes.ok.injEq] at h
      exact ⟨h.1.symm, h.1 ▸ h2⟩
    · rw [if_neg h2] at h
      exact absurd h (by simp)

/-- `parse_single_number` success inversion: any accepted number is the full
decimal value of the token (never reduced modulo 256) and lies in both the
`u8` range and the field's domain. -/
theorem parse_single_number_ok {lo hi : Nat} {i rest : List Char} {n : Nat}
    (h : parse_single_number lo hi i = .ok n rest) :
    n = digitsVal (i.takeWhile isDigitC) ∧ lo ≤ n ∧ n ≤ hi ∧ n ≤ 255 := by
  unfold parse_single_number tryMapCut at h
  cases hdu : decUint u64Max i with
  | ok v r =>
    rw [hdu] at h
    by_cases h3 : v > 255
    · simp only [if_pos h3] at h
      exact absurd h (by simp)
    · simp only [if_neg h3] at h
      by_cases h4 : lo ≤ v ∧ v ≤ hi
      · simp only [if_pos h4, PRes.ok.injEq] at h
        obtain ⟨rfl, rfl⟩ := h
        exact ⟨(decUint_ok hdu).1, h4.1, h4.2, by omega⟩
      · simp only [if_neg h4] at h
        exact absurd h (by simp)
  | back e =>
    rw [hdu] at h
    exact absurd h (by simp)
  | cut e =>
    rw [hdu] at h
    exact absurd h (by simp)

/-- An over-`u8` digit token, wherever `parse_single_number` consumes one
(single literal, range bound, or step base, in any field), commits to the
range-violation error carrying the full value. -/
theorem parse_single_number_overflow_token {ds rest : List Char} (lo hi : Nat)
    (hne : ds ≠ []) (hdig : ∀ c ∈ ds, isDigitC c = true)
    (hrest : ∀ c, rest.head? = some c → isDigitC c = false)
    (hbig : 255 < digitsVal ds) (hle : digitsVal ds ≤ u64Max) :
    parse_single_number lo hi (ds ++ rest) =
      .cut (.valueOutOfRange lo hi (digitsVal ds)) := by
  unfold parse_single_number tryMapCut
  rw [decUint_digits_token hne hdig hrest hle]
  simp only [if_pos hbig]

/-- An over-`u8` step divisor after an asterisk base commits the whole field
to the step-range-violation error carrying the full value. -/
theorem step_divisor_overflow (lo hi : Nat) {ds : List Char} (hne : ds ≠ [])
    (hdig : ∀ c ∈ ds, isDigitC c = true) (hbig : 255 < digitsVal ds)
    (hle : digitsVal ds ≤ u64Max) :
    runField (do_parse_number_only lo hi) ('*' :: '/' :: ds) =
      .error (.stepOutOfRange lo hi (digitsVal ds)) := by
  have hast : parse_asterisk lo hi ('*' :: '/' :: ds) =
      .ok (List.range' lo (hi + 1 - lo)) ('/' :: ds) := by
    have hstar : "*".data = ['*'] := rfl
    unfold parse_asterisk pmap plit
    rw [hstar]
    simp [List.isPrefixOf]
  have hslash : plit "/" ('/' :: ds) = .ok () ds := by
    have hsl : "/".data = ['/'] := rfl
    unfold plit
    rw [hsl]
    simp [List.isPrefixOf]
  have hdu : decUint u64Max ds = .ok (digitsVal ds) [] :=
    decUint_all_digits hne hdig hle
  have hstep : parse_step lo hi (parse_single_number lo hi)
      ('*' :: '/' :: ds) = .cut (.stepOutOfRange lo hi (digitsVal ds)) := by
    unfold parse_step tryMapCut pseq altL
    simp only [List.foldr, alt2, hast, hslash, hdu]
    rw [if_neg (by omega), if_pos hbig]
  unfold runField do_parse_number_only pmap parse_list separated1 altL
  simp only [List.foldr, alt2, hstep]

/-- C10 counterexample: two numeric tokens over 255 for which the claimed
range-violation report does not happen.  The day-of-week `#` ordinal of
`TUE#300` (300 is below `u64::MAX`) is parsed with `dec_uint::<u8>`, which
backtracks past 255, so the field fails with the generic malformed-expression
error; a minutes token just past `u64::MAX` overflows `dec_uint::<u64>`,
which also backtracks to the generic error.  Neither error is the claimed
`value must be in range …; found …` report. -/
theorem numeric_overflow_counterexample :
    parse_crontab "* * * * TUE#300 UTC" = some (.error .malformed) ∧
    (some (.error .malformed) : Option (Except PErr CrontabP)) ≠
      some (.error (.valueOutOfRange 0 7 300)) ∧
    parse_crontab "18446744073709551616 * * * * UTC" =
      some (.error .malformed) ∧
    (some (.error .malformed) : Option (Except PErr CrontabP)) ≠
      some (.error (.valueOutOfRange 0 59 18446744073709551616)) := by
  decide

/-- C10 (amended): no numeric token is ever wrapped modulo 256 and silently
accepted — any value `parse_single_number` accepts equals its token's full
decimal value and lies in the field's domain and in `0..=255`.  A token with
value in `(u8::MAX, u64::MAX]` at a value position (single literal, range
bound, or step base — all parsed by `parse_single_number`, in every field)
fails with the committing range-violation error reporting the full original
value, aborting the field parse (shown symbolically for a whole field and
for an asterisk-based step divisor, and concretely for single, list,
range-bound, step-divisor, month and day-of-week positions); a step divisor
in that range reports the full value with the step wording.  Tokens beyond
`u64::MAX`, and day-of-week `#` ordinals beyond 255 (read by
`dec_uint::<u8>`), also fail to parse — never wrapped — but with the generic
malformed-expression error (see the counterexample). -/
theorem numeric_overflow_reported :
    (∀ (lo hi n : Nat) (i rest : List Char),
      parse_single_number lo hi i = .ok n rest →
      n = digitsVal (i.takeWhile isDigitC) ∧ lo ≤ n ∧ n ≤ hi ∧ n ≤ 255) ∧
    (∀ (lo hi : Nat) (ds rest : List Char), ds ≠ [] →
      (∀ c ∈ ds, isDigitC c = true) →
      (∀ c, rest.head? = some c → isDigitC c = false) →
      255 < digitsVal ds → digitsVal ds ≤ u64Max →
      parse_single_number lo hi (ds ++ rest) =
        .cut (.valueOutOfRange lo hi (digitsVal ds))) ∧
    (∀ (lo hi : Nat) (ds : List Char), ds ≠ [] →
      (∀ c ∈ ds, isDigitC c = true) → 255 < digitsVal ds →
      digitsVal ds ≤ u64Max →
      runField (do_parse_number_only lo hi) ds =
        .error (.valueOutOfRange lo hi (digitsVal ds))) ∧
    (∀ (lo hi : Nat) (ds : List Char), ds ≠ [] →
      (∀ c ∈ ds, isDigitC c = true) → 255 < digitsVal ds →
      digitsVal ds ≤ u64Max →
      runField (do_parse_number_only lo hi) ('*' :: '/' :: ds) =
        .error (.stepOutOfRange lo hi (digitsVal ds))) ∧
    parse_crontab "10086 * * * * UTC" =
      some (.error (.valueOutOfRange 0 59 10086)) ∧
    parse_crontab "1,300 * * * * UTC" =
      some (.error (.valueOutOfRange 0 59 300)) ∧
    parse_crontab "1-300 * * * * UTC" =
      some (.error (.valueOutOfRange 0 59 300)) ∧
    parse_crontab "300/2 * * * * UTC" =
      some (.error (.valueOutOfRange 0 59 300)) ∧
    parse_crontab "* * * 300 * UTC" =
      some (.error (.valueOutOfRange 1 12 300)) ∧
    parse_crontab "* * * * 300 UTC" =
      some (.error (.valueOutOfRange 0 7 300)) ∧
    parse_crontab "*/300 * * * * UTC" =
      some (.error (.stepOutOfRange 0 59 300)) := by
  refine ⟨?_, ?_, ?_, ?_, by decide, by decide, by decide, by decide,
    by decide, by decide, by decide⟩
  · intro lo hi n i rest h
    exact parse_single_number_ok h
  · intro lo hi ds rest hne hdig hrest hbig hle
    exact parse_single_number_overflow_token lo hi hne hdig hrest hbig hle
  · intro lo hi ds hne hdig hbig hle
    exact do_parse_number_only_overflow lo hi hne hdig hbig hle
  · intro lo hi ds hne hdig hbig hle
    exact step_divisor_overflow lo hi hne hdig hbig hle

theorem numeric_overflow_reported_witness :
    runField (do_parse_number_only 0 59) "300".data =
      .error (.valueOutOfRange 0 59 (digitsVal "300".data)) ∧
    runField (do_parse_number_only 0 59) ('*' :: '/' :: "300".data) =
      .error (.stepOutOfRange 0 59 (digitsVal "300".data)) :=
  ⟨numeric_overflow_reported.2.2.1 0 59 "300".data (by decide) (by decide)
     (by decide) (by decide),
   numeric_overflow_reported.2.2.2.1 0 59 "300".data (by decide) (by decide)
     (by decide) (by decide)⟩
